import Mathlib

/-!
Verification of `nom-recursive` (src/nom-recursive/src/lib.rs): a shallow
embedding of the registry of rule ids (`RecursiveIndexes`), the recursion-flag
payload (`RecursiveInfo`), the capability traits (`HasRecursiveInfo`,
`HasRecursiveType`) and their `LocatedSpan` instance, together with a
spec-modelled seed-growing loop (the guarded invocation algorithm of the
companion macros crate, which is not among the sources).

Machine integers are modelled as `Nat` with explicit `% 2 ^ 64` where a `u64`
operation could overflow; `HashMap<&str, usize>` is modelled as an association
list (the code only ever inserts a key after a failed lookup, so consing is
observationally the map insert); Rust panics (the capacity `assert!` and
out-of-bounds array indexing) are modelled as `Except` / `Option`.
-/

set_option autoImplicit false

namespace NomRecursive

/-- Number of `u64` words in the flag array.  The source selects this by cargo
feature; the default configuration (neither `tracer128` nor `tracer256`) is
modelled, where `RECURSIVE_FLAG_WORDS = 1`. -/
def RECURSIVE_FLAG_WORDS : Nat := 1

/-- The message of the capacity `assert!` in `RecursiveIndexes::get`, with the
configured capacity `c = RECURSIVE_FLAG_WORDS * 64` interpolated for the
`{}` placeholder of the Rust format string. -/
def exceedMsg (c : Nat) : String :=
  "Recursive tracers exceed the maximum number(" ++ toString c ++
    "). Consider use feature `tracer128` or `tracer256` to extend it."

/-- Lookup in the association list modelling the `HashMap` from static string
keys to ids. -/
def hmGet : List (String × Nat) → String → Option Nat
  | [], _ => none
  | (k, v) :: rest, key => if k = key then some v else hmGet rest key

/-- Structure `RecursiveIndexes`: the registry mapping the static identity of
a rule to its
small integer id, plus the `next` counter. -/
structure RecursiveIndexes where
  indexes : List (String × Nat)
  next : Nat
  deriving DecidableEq

/-- Constructor `RecursiveIndexes::new`. -/
def RecursiveIndexes.new : RecursiveIndexes :=
  { indexes := [], next := 0 }

/-- Method `RecursiveIndexes::get`: return the stored id on a hit; otherwise assert
that the next id is below the capacity (a panic, modelled as `Except.error`),
then record and return it. -/
def RecursiveIndexes.get (r : RecursiveIndexes) (key : String) :
    Except String (Nat × RecursiveIndexes) :=
  match hmGet r.indexes key with
  | some x => .ok (x, r)
  | none =>
    if r.next < RECURSIVE_FLAG_WORDS * 64 then
      .ok (r.next,
        { indexes := (key, r.next) :: r.indexes, next := r.next + 1 })
    else
      .error (exceedMsg (RECURSIVE_FLAG_WORDS * 64))

/-- Structure `RecursiveInfo<T>`: the flag words (each a `u64`, kept `< 2 ^ 64`) and the
carried payload.  The Rust bound `T: Clone + Default` becomes `Inhabited` on
the operations that need `Default::default()`. -/
structure RecursiveInfo (T : Type) where
  flag : List Nat
  copy : T
  deriving DecidableEq

/-- Constructor `RecursiveInfo::new`: all flag words zero, payload `T::default()`. -/
def RecursiveInfo.new (T : Type) [Inhabited T] : RecursiveInfo T :=
  { flag := List.replicate RECURSIVE_FLAG_WORDS 0, copy := default }

/-- Instance `impl Default for RecursiveInfo`: `default()` is `Self::new()`. -/
instance (T : Type) [Inhabited T] : Inhabited (RecursiveInfo T) :=
  ⟨RecursiveInfo.new T⟩

/-- Method `RecursiveInfo::check_flag`.  Indexing `self.flag[upper]` panics when out
of bounds, hence the `Option`. -/
def RecursiveInfo.check_flag {T : Type} (s : RecursiveInfo T) (id : Nat) :
    Option Bool :=
  let upper := id / 64
  let lower := id % 64
  (s.flag[upper]?).map (fun w => ((w >>> lower) &&& 1) == 1)

/-- Method `RecursiveInfo::set_flag`: `flag[upper] = (flag[upper] & !(1 << lower)) |
(1 << lower)`.  The shift of a `u64` is reduced `% 2 ^ 64`; the bitwise and/or
cannot overflow. -/
def RecursiveInfo.set_flag {T : Type} (s : RecursiveInfo T) (id : Nat) :
    Option (RecursiveInfo T) :=
  match s.flag[id / 64]? with
  | some w =>
    some { s with flag :=
      (s.flag.set (id / 64)
        ((w &&& ((2 ^ 64 - 1) ^^^ ((1 <<< (id % 64)) % 2 ^ 64))) |||
          ((1 <<< (id % 64)) % 2 ^ 64))) }
  | none => none

/-- Method `RecursiveInfo::clear_flags`: zero every word of the flag array. -/
def RecursiveInfo.clear_flags {T : Type} (s : RecursiveInfo T) :
    RecursiveInfo T :=
  { s with flag := List.replicate s.flag.length 0 }

/-- Method `RecursiveInfo::get_copy` (the payload is cloned; clone is identity
here). -/
def RecursiveInfo.get_copy {T : Type} (s : RecursiveInfo T) : T :=
  s.copy

/-- Method `RecursiveInfo::set_copy`. -/
def RecursiveInfo.set_copy {T : Type} (s : RecursiveInfo T) (copy : T) :
    RecursiveInfo T :=
  { s with copy := copy }

/-- Trait `HasRecursiveInfo<T>`. -/
class HasRecursiveInfo (T : Type) (S : Type) where
  get_recursive_info : S → RecursiveInfo T
  set_recursive_info : S → RecursiveInfo T → S

export HasRecursiveInfo (get_recursive_info set_recursive_info)

/-- Instance `impl HasRecursiveInfo<T> for RecursiveInfo<T>`: get clones itself, set
replaces itself by `info`. -/
instance (T : Type) : HasRecursiveInfo T (RecursiveInfo T) where
  get_recursive_info s := s
  set_recursive_info _ info := info

/-- Structure `nom_locate::LocatedSpan<T, X>`: byte offset, line number, the fragment
(remaining input) and the extra payload. -/
structure LocatedSpan (T : Type) (X : Type) where
  offset : Nat
  line : Nat
  fragment : T
  extra : X
  deriving DecidableEq

/-- Trait `HasRecursiveType<T>`. -/
class HasRecursiveType (T : Type) (S : Type) where
  get_value : S → T

/-- Instance `impl HasRecursiveType<T> for LocatedSpan<T, U>`: clone the fragment. -/
instance (T X : Type) [HasRecursiveInfo T X] :
    HasRecursiveType T (LocatedSpan T X) where
  get_value s := s.fragment

/-- Instance `impl HasRecursiveInfo<T> for LocatedSpan<T, U>`: delegate to `extra`,
touching no other field. -/
instance (T X : Type) [HasRecursiveInfo T X] :
    HasRecursiveInfo T (LocatedSpan T X) where
  get_recursive_info s := get_recursive_info s.extra
  set_recursive_info s info :=
    { s with extra := set_recursive_info s.extra info }

/-- Modelled from the spec: the seed-growing loop of the guarded invocation
algorithm (spec 4.2), which is produced by the `recursive_parser` attribute of
the companion `nom-recursive-macros` crate and is not among the sources here.
`f b` is one evaluation of the rule body in which a re-entrant self-call
observes the provisional best `b`; a result `some n` means success consuming
`n` units of input, `none` ordinary failure, and the initial best `none` is
the failing bottom seed.  The first argument counts remaining loop
iterations (fuel); an outer `none` means the fuel ran out before the loop
converged. -/
def growLoop (f : Option Nat → Option Nat) :
    Nat → Option Nat → Option (Option Nat)
  | 0, _ => none
  | fuel + 1, best =>
    match f best, best with
    | some n, none => growLoop f fuel (some n)
    | some n, some m =>
      if m < n then growLoop f fuel (some n) else some best
    | none, _ => some best

/-- Register a list of rule identities in order, stopping at the first panic:
the ids returned by the successive `RecursiveIndexes::get` calls, with the
final registry state. -/
def registerAll (r : RecursiveIndexes) :
    List String → Except String (List Nat × RecursiveIndexes)
  | [] => .ok ([], r)
  | k :: ks =>
    match r.get k with
    | .ok (i, r1) =>
      match registerAll r1 ks with
      | .ok (is, r2) => .ok (i :: is, r2)
      | .error e => .error e
    | .error e => .error e

/-- The registry invariant: registered keys are pairwise distinct, the ids
stored in the map (newest first) are exactly `next - 1, ..., 1, 0`, and the
counter never exceeds the configured capacity. -/
def Inv (r : RecursiveIndexes) : Prop :=
  (r.indexes.map Prod.fst).Nodup ∧
  r.indexes.map Prod.snd = (List.range r.next).reverse ∧
  r.next ≤ RECURSIVE_FLAG_WORDS * 64

/-- Registry states reachable from `RecursiveIndexes::new` by `get` calls
that return normally (do not panic). -/
inductive Reachable : RecursiveIndexes → Prop where
  | init : Reachable RecursiveIndexes.new
  | step {r : RecursiveIndexes} {key : String} {i : Nat} {r' : RecursiveIndexes} :
      Reachable r → r.get key = .ok (i, r') → Reachable r'

/-- Sixty-five pairwise distinct rule identities, for concrete runs. -/
def keys65 : List String := (List.range 65).map (fun n => "rule" ++ toString n)

/-! Lemmas about the association-list lookup. -/

theorem hmGet_eq_none {m : List (String × Nat)} {k : String} :
    hmGet m k = none ↔ k ∉ m.map Prod.fst := by
  induction m with
  | nil => simp [hmGet]
  | cons p rest ih =>
    obtain ⟨k', v⟩ := p
    by_cases h : k' = k
    · subst h
      simp [hmGet]
    · simp [hmGet, h, ih, Ne.symm h]

theorem hmGet_mem {m : List (String × Nat)} {k : String} {v : Nat}
    (h : hmGet m k = some v) : (k, v) ∈ m := by
  induction m with
  | nil => simp [hmGet] at h
  | cons p rest ih =>
    obtain ⟨k', v'⟩ := p
    by_cases hk : k' = k
    · subst hk
      simp [hmGet] at h
      simp [h]
    · simp [hmGet, hk] at h
      simp [ih h]

theorem mem_hmGet {m : List (String × Nat)}
    (hnd : (m.map Prod.fst).Nodup) {k : String} {v : Nat}
    (h : (k, v) ∈ m) : hmGet m k = some v := by
  induction m with
  | nil => simp at h
  | cons p rest ih =>
    obtain ⟨k', v'⟩ := p
    simp only [List.map_cons, List.nodup_cons] at hnd
    rcases List.mem_cons.mp h with h | h
    · cases h
      simp [hmGet]
    · have hk : k' ≠ k := by
        intro hk
        subst hk
        exact hnd.1 (List.mem_map.mpr ⟨(k', v), h, rfl⟩)
      simp [hmGet, hk, ih hnd.2 h]

theorem snd_nodup_inj {m : List (String × Nat)} :
    (m.map Prod.snd).Nodup → ∀ {k k' : String} {v : Nat},
      (k, v) ∈ m → (k', v) ∈ m → k = k' := by
  induction m with
  | nil =>
    intro _ k k' v h1 _
    simp at h1
  | cons p rest ih =>
    obtain ⟨a, b⟩ := p
    intro hnd k k' v h1 h2
    simp only [List.map_cons, List.nodup_cons] at hnd
    rcases List.mem_cons.mp h1 with h1 | h1 <;>
      rcases List.mem_cons.mp h2 with h2 | h2
    · have e1 := congrArg Prod.fst h1
      have e2 := congrArg Prod.fst h2
      simp only at e1 e2
      rw [e1, e2]
    · have e := congrArg Prod.snd h1
      simp only at e
      have hb := hnd.1
      rw [← e] at hb
      exact absurd (List.mem_map.mpr ⟨(k', v), h2, rfl⟩) hb
    · have e := congrArg Prod.snd h2
      simp only at e
      have hb := hnd.1
      rw [← e] at hb
      exact absurd (List.mem_map.mpr ⟨(k, v), h1, rfl⟩) hb
    · exact ih hnd.2 h1 h2

/-! Lemmas about `RecursiveIndexes::get` and the registry invariant. -/

theorem get_hit {r : RecursiveIndexes} {k : String} {i : Nat}
    (h : hmGet r.indexes k = some i) : r.get k = .ok (i, r) := by
  simp [RecursiveIndexes.get, h]

theorem get_ok_cases {r : RecursiveIndexes} {k : String} {i : Nat}
    {r' : RecursiveIndexes} (h : r.get k = .ok (i, r')) :
    (hmGet r.indexes k = some i ∧ r' = r) ∨
    (hmGet r.indexes k = none ∧ i = r.next ∧
      r.next < RECURSIVE_FLAG_WORDS * 64 ∧
      r' = { indexes := (k, r.next) :: r.indexes, next := r.next + 1 }) := by
  unfold RecursiveIndexes.get at h
  cases hm : hmGet r.indexes k with
  | some x =>
    rw [hm] at h
    simp only [Except.ok.injEq, Prod.mk.injEq] at h
    exact Or.inl ⟨congrArg some h.1, h.2.symm⟩
  | none =>
    rw [hm] at h
    by_cases hlt : r.next < RECURSIVE_FLAG_WORDS * 64
    · rw [if_pos hlt] at h
      simp only [Except.ok.injEq, Prod.mk.injEq] at h
      exact Or.inr ⟨rfl, h.1.symm, hlt, h.2.symm⟩
    · rw [if_neg hlt] at h
      exact absurd h (by simp)

theorem inv_new : Inv RecursiveIndexes.new := by
  refine ⟨by simp [RecursiveIndexes.new], by simp [RecursiveIndexes.new], ?_⟩
  simp [RecursiveIndexes.new, RECURSIVE_FLAG_WORDS]

theorem get_inv {r : RecursiveIndexes} {k : String} {i : Nat}
    {r' : RecursiveIndexes} (hr : Inv r) (h : r.get k = .ok (i, r')) :
    Inv r' := by
  rcases get_ok_cases h with ⟨_, rfl⟩ | ⟨hm, _, hlt, rfl⟩
  · exact hr
  · obtain ⟨hnd, hsnd, _⟩ := hr
    have hk := hmGet_eq_none.mp hm
    refine ⟨?_, ?_, ?_⟩
    · show (((k, r.next) :: r.indexes).map Prod.fst).Nodup
      simp only [List.map_cons, List.nodup_cons]
      exact ⟨hk, hnd⟩
    · show ((k, r.next) :: r.indexes).map Prod.snd =
        (List.range (r.next + 1)).reverse
      simp [hsnd, List.range_succ]
    · show r.next + 1 ≤ RECURSIVE_FLAG_WORDS * 64
      omega

theorem reachable_inv {r : RecursiveIndexes} (h : Reachable r) : Inv r := by
  induction h with
  | init => exact inv_new
  | step _ hget ih => exact get_inv ih hget

theorem hmGet_lt_next {r : RecursiveIndexes} (hr : Inv r) {k : String}
    {v : Nat} (h : hmGet r.indexes k = some v) : v < r.next := by
  have hv : v ∈ r.indexes.map Prod.snd :=
    List.mem_map.mpr ⟨(k, v), hmGet_mem h, rfl⟩
  rw [hr.2.1, List.mem_reverse, List.mem_range] at hv
  exact hv

theorem inv_inj {r : RecursiveIndexes} (hr : Inv r) {k k' : String} {v : Nat}
    (h1 : hmGet r.indexes k = some v) (h2 : hmGet r.indexes k' = some v) :
    k = k' := by
  have hnd : (r.indexes.map Prod.snd).Nodup := by
    rw [hr.2.1]
    exact List.nodup_reverse.mpr (List.nodup_range _)
  exact snd_nodup_inj hnd (hmGet_mem h1) (hmGet_mem h2)

theorem inv_length {r : RecursiveIndexes} (hr : Inv r) :
    r.indexes.length = r.next := by
  have := congrArg List.length hr.2.1
  simpa using this

theorem get_spec {r : RecursiveIndexes} {k : String} {i : Nat}
    {r' : RecursiveIndexes} (h : r.get k = .ok (i, r')) :
    hmGet r'.indexes k = some i := by
  rcases get_ok_cases h with ⟨hm, rfl⟩ | ⟨_, rfl, _, rfl⟩
  · exact hm
  · simp [hmGet]

theorem get_frame {r : RecursiveIndexes} {k k' : String} {i j : Nat}
    {r' : RecursiveIndexes} (h : r.get k' = .ok (j, r'))
    (hm : hmGet r.indexes k = some i) : hmGet r'.indexes k = some i := by
  rcases get_ok_cases h with ⟨_, rfl⟩ | ⟨hnone, _, _, rfl⟩
  · exact hm
  · have hne : k' ≠ k := by
      intro hk
      rw [hk] at hnone
      rw [hnone] at hm
      exact Option.noConfusion hm
    simp [hmGet, hne, hm]

theorem fresh_cons {r : RecursiveIndexes} {k : String} {ks : List String}
    (hnd : (k :: ks).Nodup)
    (hfresh : ∀ k' ∈ k :: ks, hmGet r.indexes k' = none) :
    ∀ k' ∈ ks, hmGet ((k, r.next) :: r.indexes) k' = none := by
  intro k' hk'
  have hne : k ≠ k' := by
    intro h
    exact (List.nodup_cons.mp hnd).1 (h ▸ hk')
  simpa [hmGet, hne] using hfresh k' (by simp [hk'])

theorem registerAll_ok :
    ∀ (keys : List String) (r : RecursiveIndexes), keys.Nodup →
      (∀ k ∈ keys, hmGet r.indexes k = none) →
      r.next + keys.length ≤ RECURSIVE_FLAG_WORDS * 64 →
      ∃ r', registerAll r keys = .ok (List.range' r.next keys.length, r') ∧
        r'.next = r.next + keys.length := by
  intro keys
  induction keys with
  | nil =>
    intro r _ _ _
    exact ⟨r, rfl, rfl⟩
  | cons k ks ih =>
    intro r hnd hfresh hcap
    simp only [List.length_cons] at hcap
    have hm : hmGet r.indexes k = none := hfresh k (by simp)
    have hlt : r.next < RECURSIVE_FLAG_WORDS * 64 := by omega
    obtain ⟨r', hreg, hnext⟩ := ih
      { indexes := (k, r.next) :: r.indexes, next := r.next + 1 }
      (List.nodup_cons.mp hnd).2 (fresh_cons hnd hfresh)
      (by show r.next + 1 + ks.length ≤ RECURSIVE_FLAG_WORDS * 64; omega)
    refine ⟨r', ?_, ?_⟩
    · show registerAll r (k :: ks) = _
      simp only [registerAll, RecursiveIndexes.get, hm, if_pos hlt, hreg]
      simp [List.range'_succ]
    · show r'.next = r.next + (ks.length + 1)
      rw [hnext]
      show r.next + 1 + ks.length = _
      omega

theorem registerAll_err :
    ∀ (keys : List String) (r : RecursiveIndexes), keys.Nodup →
      (∀ k ∈ keys, hmGet r.indexes k = none) →
      r.next ≤ RECURSIVE_FLAG_WORDS * 64 →
      RECURSIVE_FLAG_WORDS * 64 < r.next + keys.length →
      registerAll r keys = .error (exceedMsg (RECURSIVE_FLAG_WORDS * 64)) := by
  intro keys
  induction keys with
  | nil =>
    intro r _ _ hle hgt
    simp only [List.length_nil] at hgt
    omega
  | cons k ks ih =>
    intro r hnd hfresh hle hgt
    simp only [List.length_cons] at hgt
    have hm : hmGet r.indexes k = none := hfresh k (by simp)
    by_cases hlt : r.next < RECURSIVE_FLAG_WORDS * 64
    · have hrec := ih
        { indexes := (k, r.next) :: r.indexes, next := r.next + 1 }
        (List.nodup_cons.mp hnd).2 (fresh_cons hnd hfresh)
        (by show r.next + 1 ≤ RECURSIVE_FLAG_WORDS * 64; omega)
        (by show RECURSIVE_FLAG_WORDS * 64 < r.next + 1 + ks.length; omega)
      show registerAll r (k :: ks) = _
      simp only [registerAll, RecursiveIndexes.get, hm, if_pos hlt, hrec]
    · show registerAll r (k :: ks) = _
      simp only [registerAll, RecursiveIndexes.get, hm, if_neg hlt]

/-- Claim C2: registering one more distinct rule identity than the configured
capacity `C = 64 * RECURSIVE_FLAG_WORDS` fails fatally with an error naming
the capacity rather than returning an id; with the default configuration the
first 64 distinct identities receive ids `0..63` and the 65th aborts, so two
distinct identities are never silently aliased to the same id. -/
theorem claim_C2_capacity_fatal (keys : List String) (hnd : keys.Nodup)
    (hlen : keys.length = RECURSIVE_FLAG_WORDS * 64 + 1) :
    (∃ r, registerAll RecursiveIndexes.new
        (keys.take (RECURSIVE_FLAG_WORDS * 64)) =
      .ok (List.range (RECURSIVE_FLAG_WORDS * 64), r)) ∧
    registerAll RecursiveIndexes.new keys =
      .error (exceedMsg (RECURSIVE_FLAG_WORDS * 64)) := by
  constructor
  · have hnd' : (keys.take (RECURSIVE_FLAG_WORDS * 64)).Nodup :=
      List.Nodup.sublist (List.take_sublist _ _) hnd
    have hlen' : (keys.take (RECURSIVE_FLAG_WORDS * 64)).length =
        RECURSIVE_FLAG_WORDS * 64 := by
      rw [List.length_take, hlen]
      omega
    obtain ⟨r', hreg, _⟩ := registerAll_ok _ RecursiveIndexes.new hnd'
      (fun k _ => rfl)
      (by show 0 + _ ≤ _; omega)
    refine ⟨r', ?_⟩
    rw [hreg, hlen', List.range_eq_range']
    rfl
  · exact registerAll_err keys RecursiveIndexes.new hnd (fun k _ => rfl)
      (by show 0 ≤ _; omega) (by show _ < 0 + keys.length; omega)

/-- Claim C2 witness: a concrete run on 65 distinct identities. -/
theorem claim_C2_capacity_fatal_witness :
    keys65.Nodup ∧ keys65.length = RECURSIVE_FLAG_WORDS * 64 + 1 ∧
    registerAll RecursiveIndexes.new keys65 =
      .error (exceedMsg (RECURSIVE_FLAG_WORDS * 64)) :=
  ⟨by decide, by rfl, (claim_C2_capacity_fatal keys65 (by decide) (by rfl)).2⟩

/-- Claim C3: within one registry, a repeated `get` of the same key returns
the id of the first call and leaves the registry unchanged; `get`s of
distinct keys return distinct ids; ids are handed out in first-seen order
starting at 0 (a key not yet registered receives the number of already
registered keys as its id); and a registered id is never reassigned by later
registrations. -/
theorem claim_C3_id_stability (r : RecursiveIndexes) (h : Reachable r) :
    (∀ k i r', r.get k = .ok (i, r') → r'.get k = .ok (i, r')) ∧
    (∀ k1 k2 i1 i2 r1 r2, k1 ≠ k2 → r.get k1 = .ok (i1, r1) →
      r1.get k2 = .ok (i2, r2) → i1 ≠ i2) ∧
    (∀ k i r', hmGet r.indexes k = none → r.get k = .ok (i, r') →
      i = r.indexes.length) ∧
    (∀ k k' i j r', hmGet r.indexes k = some i → r.get k' = .ok (j, r') →
      hmGet r'.indexes k = some i) := by
  refine ⟨?_, ?_, ?_, ?_⟩
  · intro k i r' hget
    exact get_hit (get_spec hget)
  · intro k1 k2 i1 i2 r1 r2 hne h1 h2
    have hInv1 : Inv r1 := reachable_inv (Reachable.step h h1)
    have hm1 : hmGet r1.indexes k1 = some i1 := get_spec h1
    rcases get_ok_cases h2 with ⟨hm2, _⟩ | ⟨_, hi2, _, _⟩
    · intro he
      rw [← he] at hm2
      exact hne (inv_inj hInv1 hm1 hm2)
    · have := hmGet_lt_next hInv1 hm1
      omega
  · intro k i r' hnone hget
    rcases get_ok_cases hget with ⟨hm, _⟩ | ⟨_, hi, _, _⟩
    · rw [hnone] at hm
      exact Option.noConfusion hm
    · rw [hi, inv_length (reachable_inv h)]
  · intro k k' i j r' hm hget
    exact get_frame hget hm

/-- Claim C3 witness: a second lookup of `"expr"` in the registry produced by
its first registration returns the same id 0 and the same state. -/
theorem claim_C3_id_stability_witness :
    (RecursiveIndexes.mk [("expr", 0)] 1).get "expr" =
      .ok (0, RecursiveIndexes.mk [("expr", 0)] 1) :=
  (claim_C3_id_stability RecursiveIndexes.new Reachable.init).1 "expr" 0
    (RecursiveIndexes.mk [("expr", 0)] 1) (by rfl)

/-- Claim C10: in every registry state reachable from `RecursiveIndexes::new`
by normally returning `get` calls, the map is injective, its values are
exactly `0, ..., next - 1`, and `next` never exceeds the capacity
`64 * RECURSIVE_FLAG_WORDS`; a `get` for an already registered key leaves the
state completely unchanged. -/
theorem claim_C10_registry_invariant (r : RecursiveIndexes)
    (h : Reachable r) :
    (∀ k k' v, hmGet r.indexes k = some v → hmGet r.indexes k' = some v →
      k = k') ∧
    (∀ v, (∃ k, hmGet r.indexes k = some v) ↔ v < r.next) ∧
    r.next ≤ RECURSIVE_FLAG_WORDS * 64 ∧
    (∀ k i, hmGet r.indexes k = some i → r.get k = .ok (i, r)) := by
  have hInv := reachable_inv h
  refine ⟨fun k k' v h1 h2 => inv_inj hInv h1 h2, ?_, hInv.2.2,
    fun k i hm => get_hit hm⟩
  intro v
  constructor
  · rintro ⟨k, hk⟩
    exact hmGet_lt_next hInv hk
  · intro hv
    have hvmem : v ∈ r.indexes.map Prod.snd := by
      rw [hInv.2.1, List.mem_reverse, List.mem_range]
      exact hv
    obtain ⟨⟨k, v'⟩, hmem, hv'⟩ := List.mem_map.mp hvmem
    simp only at hv'
    rw [← hv']
    exact ⟨k, mem_hmGet hInv.1 hmem⟩

/-- Claim C10 witness: the invariant instantiated at the initial registry. -/
theorem claim_C10_registry_invariant_witness :
    RecursiveIndexes.new.next ≤ RECURSIVE_FLAG_WORDS * 64 :=
  (claim_C10_registry_invariant RecursiveIndexes.new Reachable.init).2.2.1

/-! Lemmas about the flag words. -/

theorem beq_and_one_eq_testBit (w l : Nat) :
    (((w >>> l) &&& 1) == 1) = w.testBit l := by
  simp [Nat.testBit, Nat.and_one_is_mod, Nat.one_and_eq_mod_two]

theorem shiftLeft_one_mod {l : Nat} (hl : l < 64) :
    (1 <<< l) % 2 ^ 64 = 2 ^ l := by
  rw [Nat.shiftLeft_eq, one_mul, Nat.mod_eq_of_lt]
  exact Nat.pow_lt_pow_right (by norm_num) hl

theorem setBit_testBit_self (w l : Nat) :
    ((w &&& ((2 ^ 64 - 1) ^^^ 2 ^ l)) ||| 2 ^ l).testBit l = true := by
  simp [Nat.testBit_or, Nat.testBit_two_pow_self]

theorem setBit_testBit_other (w l j : Nat) (hj : j < 64) (hne : j ≠ l) :
    ((w &&& ((2 ^ 64 - 1) ^^^ 2 ^ l)) ||| 2 ^ l).testBit j = w.testBit j := by
  rw [Nat.testBit_or, Nat.testBit_and, Nat.testBit_xor,
    Nat.testBit_two_pow_sub_one, Nat.testBit_two_pow_of_ne (Ne.symm hne)]
  simp [hj]

theorem check_flag_eq {T : Type} (f : RecursiveInfo T) {w : Nat}
    (hw : f.flag = [w]) {id : Nat} (hid : id < 64) :
    f.check_flag id = some (w.testBit id) := by
  have h0 : id / 64 = 0 := Nat.div_eq_of_lt hid
  have h1 : id % 64 = id := Nat.mod_eq_of_lt hid
  simp only [RecursiveInfo.check_flag, hw, h0, h1, List.getElem?_cons_zero,
    Option.map_some']
  exact congrArg some (beq_and_one_eq_testBit w id)

theorem set_flag_eq {T : Type} (f : RecursiveInfo T) {w : Nat}
    (hw : f.flag = [w]) {id : Nat} (hid : id < 64) :
    f.set_flag id =
      some { f with flag := [(w &&& ((2 ^ 64 - 1) ^^^ 2 ^ id)) ||| 2 ^ id] } := by
  have h0 : id / 64 = 0 := Nat.div_eq_of_lt hid
  have h1 : id % 64 = id := Nat.mod_eq_of_lt hid
  unfold RecursiveInfo.set_flag
  rw [hw, h0, h1, shiftLeft_one_mod hid]
  rfl

/-- Claim C5: after `set_flag(id)` the bit `id` reads back `true`, and any
other bit below capacity reads back exactly as it did before the set. -/
theorem claim_C5_set_flag (T : Type) (f : RecursiveInfo T) (i j : Nat)
    (hlen : f.flag.length = RECURSIVE_FLAG_WORDS)
    (hi : i < RECURSIVE_FLAG_WORDS * 64) (hj : j < RECURSIVE_FLAG_WORDS * 64)
    (hij : j ≠ i) :
    ∃ f', f.set_flag i = some f' ∧ f'.check_flag i = some true ∧
      f'.check_flag j = f.check_flag j := by
  have hi' : i < 64 := by simpa [RECURSIVE_FLAG_WORDS] using hi
  have hj' : j < 64 := by simpa [RECURSIVE_FLAG_WORDS] using hj
  obtain ⟨w, hw⟩ :=
    List.length_eq_one.mp (by simpa [RECURSIVE_FLAG_WORDS] using hlen)
  refine ⟨_, set_flag_eq f hw hi', ?_, ?_⟩
  · rw [check_flag_eq _ rfl hi', setBit_testBit_self]
  · rw [check_flag_eq _ rfl hj', check_flag_eq f hw hj',
      setBit_testBit_other w i j hj' hij]

/-- Claim C5 witness: set bit 0 on the fresh flags and read bits 0 and 1. -/
theorem claim_C5_set_flag_witness :
    (RecursiveInfo.new Nat).flag.length = RECURSIVE_FLAG_WORDS ∧
    (0 : Nat) < RECURSIVE_FLAG_WORDS * 64 ∧
    (1 : Nat) < RECURSIVE_FLAG_WORDS * 64 ∧ (1 : Nat) ≠ 0 ∧
    (∃ f', (RecursiveInfo.new Nat).set_flag 0 = some f' ∧
      f'.check_flag 0 = some true ∧
      f'.check_flag 1 = (RecursiveInfo.new Nat).check_flag 1) :=
  ⟨rfl, by decide, by decide, by decide,
    claim_C5_set_flag Nat (RecursiveInfo.new Nat) 0 1 rfl (by decide)
      (by decide) (by decide)⟩

/-- Claim C4 counterexample: the only clear operation of `RecursiveInfo` is
`clear_flags`, which zeroes every word.  Starting from fresh flags, set bits
0 and 1; bit 1 reads `true`.  Applying the clear operation (for id 0) yields
flags on which bit 1 reads `false`, so the claim that clearing one bit leaves
every other flag bit unchanged is false at `f = set_flag(set_flag(new,0),1)`,
`i = 0`, `j = 1`. -/
theorem claim_C4_counterexample :
    (((RecursiveInfo.new Nat).set_flag 0).bind (fun f => f.set_flag 1)).map
      (fun f => (f.check_flag 1, f.clear_flags.check_flag 1)) =
    some (some true, some false) := by decide

/-- Claim C4 as amended: the code has no per-bit clear; its clear operation
`clear_flags` clears every bit, so after it `check_flag` reads `false` at
every id below capacity (in particular the bit being restored is cleared,
but other set bits are not preserved). -/
theorem claim_C4_clear_flags_amended (T : Type) (f : RecursiveInfo T)
    (i : Nat) (hlen : f.flag.length = RECURSIVE_FLAG_WORDS)
    (hi : i < RECURSIVE_FLAG_WORDS * 64) :
    f.clear_flags.check_flag i = some false := by
  have hi' : i < 64 := by simpa [RECURSIVE_FLAG_WORDS] using hi
  have hw : f.clear_flags.flag = [0] := by
    simp [RecursiveInfo.clear_flags, hlen, RECURSIVE_FLAG_WORDS,
      List.replicate_one]
  rw [check_flag_eq _ hw hi', Nat.zero_testBit]

/-- Claim C4 witness (amended claim): clearing the fresh flags with bit 0 set
leaves bit 0 reading `false`. -/
theorem claim_C4_clear_flags_amended_witness :
    (RecursiveInfo.new Nat).flag.length = RECURSIVE_FLAG_WORDS ∧
    (0 : Nat) < RECURSIVE_FLAG_WORDS * 64 ∧
    (RecursiveInfo.new Nat).clear_flags.check_flag 0 = some false :=
  ⟨rfl, by decide,
    claim_C4_clear_flags_amended Nat (RecursiveInfo.new Nat) 0 rfl (by decide)⟩

/-- Claim C6: every id returned by `RecursiveIndexes::get` is strictly below
the capacity `64 * RECURSIVE_FLAG_WORDS`, and for any id below capacity the
word indexing inside `check_flag` and `set_flag` stays in bounds (the
out-of-range branch, modelled as `none`, is not taken), so flag operations on
registry-assigned ids are total. -/
theorem claim_C6_ids_safe :
    (∀ (r : RecursiveIndexes) (k : String) (i : Nat)
      (r' : RecursiveIndexes), Reachable r → r.get k = .ok (i, r') →
      i < RECURSIVE_FLAG_WORDS * 64) ∧
    (∀ (T : Type) (f : RecursiveInfo T) (id : Nat),
      f.flag.length = RECURSIVE_FLAG_WORDS → id < RECURSIVE_FLAG_WORDS * 64 →
      (f.check_flag id).isSome ∧ (f.set_flag id).isSome) := by
  constructor
  · intro r k i r' h hget
    have hInv := reachable_inv h
    rcases get_ok_cases hget with ⟨hm, _⟩ | ⟨_, hi, hlt, _⟩
    · exact lt_of_lt_of_le (hmGet_lt_next hInv hm) hInv.2.2
    · rw [hi]
      exact hlt
  · intro T f id hlen hid
    have hup : id / 64 < f.flag.length := by
      rw [hlen]
      exact (Nat.div_lt_iff_lt_mul (by norm_num)).mpr hid
    have hsome : (f.flag[id / 64]?).isSome := by
      rw [List.getElem?_eq_getElem hup]
      rfl
    constructor
    · simpa [RecursiveInfo.check_flag] using hsome
    · rcases ho : f.flag[id / 64]? with _ | w
      · rw [ho] at hsome
        simp at hsome
      · simp [RecursiveInfo.set_flag, ho]

/-- Claim C6 witness: id 0 assigned by the first `get` is below capacity, and
flag operations at id 5 on the fresh flags are in bounds. -/
theorem claim_C6_ids_safe_witness :
    (0 : Nat) < RECURSIVE_FLAG_WORDS * 64 ∧
    ((RecursiveInfo.new Nat).check_flag 5).isSome ∧
    ((RecursiveInfo.new Nat).set_flag 5).isSome :=
  ⟨claim_C6_ids_safe.1 RecursiveIndexes.new "expr" 0
      (RecursiveIndexes.mk [("expr", 0)] 1) Reachable.init (by rfl),
    (claim_C6_ids_safe.2 Nat (RecursiveInfo.new Nat) 5 rfl (by decide)).1,
    (claim_C6_ids_safe.2 Nat (RecursiveInfo.new Nat) 5 rfl (by decide)).2⟩

/-- Claim C7: `RecursiveInfo::new()` equals `Default::default()`, carries
`T::default()` as its payload, and has every flag bit clear: `check_flag`
reads `false` at every id below capacity. -/
theorem claim_C7_new_all_clear (T : Type) [Inhabited T] :
    RecursiveInfo.new T = default ∧
    (RecursiveInfo.new T).copy = (default : T) ∧
    ∀ id, id < RECURSIVE_FLAG_WORDS * 64 →
      (RecursiveInfo.new T).check_flag id = some false := by
  refine ⟨rfl, rfl, ?_⟩
  intro id hid
  have hid' : id < 64 := by simpa [RECURSIVE_FLAG_WORDS] using hid
  have hw : (RecursiveInfo.new T).flag = [0] := rfl
  rw [check_flag_eq _ hw hid', Nat.zero_testBit]

/-- Claim C7 witness: bit 0 of the fresh flags reads `false`. -/
theorem claim_C7_new_all_clear_witness :
    (0 : Nat) < RECURSIVE_FLAG_WORDS * 64 ∧
    (RecursiveInfo.new Nat).check_flag 0 = some false :=
  ⟨by decide, (claim_C7_new_all_clear Nat).2.2 0 (by decide)⟩

/-- Claim C8: on a `LocatedSpan` whose extra payload is a `RecursiveInfo`,
`set_recursive_info` replaces only the recursion-guard payload:
`get_recursive_info` reads back exactly the written info, and the fragment,
offset and line of the span are unchanged. -/
theorem claim_C8_span_payload (T : Type)
    (s : LocatedSpan T (RecursiveInfo T)) (info : RecursiveInfo T) :
    get_recursive_info (set_recursive_info s info) = info ∧
    (set_recursive_info s info).fragment = s.fragment ∧
    (set_recursive_info s info).offset = s.offset ∧
    (set_recursive_info s info).line = s.line :=
  ⟨rfl, rfl, rfl, rfl⟩

/-- Claim C9: the carried payload round-trips: `get_copy` after `set_copy v`
returns `v` unchanged. -/
theorem claim_C9_copy_roundtrip (T : Type) (f : RecursiveInfo T) (v : T) :
    (f.set_copy v).get_copy = v := rfl

/-! Termination of the seed-growing loop. -/

theorem growLoop_isSome_of_le {f : Option Nat → Option Nat} {L : Nat}
    (hf : ∀ b n, f b = some n → n ≤ L) :
    ∀ (fuel m : Nat), m ≤ L → L + 1 ≤ fuel + m →
      (growLoop f fuel (some m)).isSome := by
  intro fuel
  induction fuel with
  | zero =>
    intro m hm hfuel
    omega
  | succ fuel ih =>
    intro m hm hfuel
    cases hfb : f (some m) with
    | none => simp [growLoop, hfb]
    | some n =>
      have hn : n ≤ L := hf _ _ hfb
      by_cases hmn : m < n
      · have := ih n hn (by omega)
        simpa [growLoop, hfb, hmn] using this
      · simp [growLoop, hfb, hmn]

/-- Claim C1: the seed-growing loop of the guarded entry point terminates on
every finite input: if every evaluation of the rule body consumes at most `L`
units of input then the loop returns (with its best result, possibly the
bottom failure) within `L + 2` iterations — each iteration either strictly
grows the consumed length, which is bounded by `L`, or stops the loop. -/
theorem claim_C1_seed_growth_terminates (f : Option Nat → Option Nat)
    (L : Nat) (hf : ∀ b n, f b = some n → n ≤ L) :
    (growLoop f (L + 2) none).isSome := by
  show (growLoop f (L + 1 + 1) none).isSome
  cases hfb : f none with
  | none => simp [growLoop, hfb]
  | some n =>
    have hn : n ≤ L := hf _ _ hfb
    have := growLoop_isSome_of_le hf (L + 1) n hn (by omega)
    simpa [growLoop, hfb] using this

/-- Claim C1 witness: a body that succeeds once from the bottom seed and then
stops growing, with input length bound 1. -/
theorem claim_C1_seed_growth_terminates_witness :
    (growLoop (fun b => match b with | none => some 1 | some _ => none)
      (1 + 2) none).isSome :=
  claim_C1_seed_growth_terminates _ 1 (by
    intro b n h
    rcases b with _ | m
    · simp at h
      omega
    · simp at h)

end NomRecursive
